import Mathlib

/-!
Verification development for the `mm-bot` L2 order book (`src/rust/src/lib.rs`,
`L2Book`).

The embedding models:
  * `f64` values as `F`: exact rationals plus `nan`, `posInf`, `negInf`.
    Claims under scrutiny concern comparison structure, NaN/infinity handling
    and formula shape, none of which depend on rounding, so finite doubles are
    embedded as exact rationals.  The IEEE signed zero is conflated with `0`
    (consistently with `OrderedFloat`, whose `Eq` also identifies them).
  * `indexmap::IndexMap<OrderedFloat<f64>, f64>` as an association list in
    insertion order (`IMap`): `insert` overwrites in place or appends,
    `swap_remove` moves the last entry into the vacated slot.
  * `Vec::sort_by` as a stable insertion sort.  The Rust comparator
    `partial_cmp(..).unwrap()` panics as soon as a NaN participates in a
    comparison; Rust's stable sort compares every element at least once when
    the slice has length ≥ 2, so a sort call panics exactly when the slice has
    length ≥ 2 and contains a NaN key (`sortAborts`).  A panic is modelled as
    `Except.error σ` where `σ` is the book state observable after the unwind
    (the `L2Book` outlives a PyO3 panic, so this state is observable).
    The comparator's behaviour on NaN (never consulted in non-panicking runs)
    is totalised like `OrderedFloat`: NaN greater than everything.
-/

namespace MM

/-- Model of an `f64` value: NaN, the two infinities, or a finite value
represented exactly as a rational. -/
inductive F where
  | nan : F
  | posInf : F
  | negInf : F
  | num : ℚ → F
deriving DecidableEq

namespace F

/-- Model of `f64::is_nan`. -/
def isNaN : F → Bool
  | nan => true
  | _ => false

/-- Comparison of two finite doubles (exact). -/
def qcmp (a b : ℚ) : Ordering :=
  if a < b then .lt else if b < a then .gt else .eq

/-- Model of `f64::partial_cmp`: `none` iff either operand is NaN. -/
def pcmp : F → F → Option Ordering
  | nan, _ => none
  | _, nan => none
  | posInf, posInf => some .eq
  | posInf, _ => some .gt
  | _, posInf => some .lt
  | negInf, negInf => some .eq
  | negInf, _ => some .lt
  | _, negInf => some .gt
  | num a, num b => some (qcmp a b)

/-- IEEE `>` on doubles (`x > y` in Rust): false whenever a NaN is involved. -/
def gtb (x y : F) : Bool := pcmp x y == some .gt

/-- IEEE `<` on doubles. -/
def ltb (x y : F) : Bool := pcmp x y == some .lt

/-- IEEE `<=` on doubles. -/
def leb (x y : F) : Bool := pcmp x y == some .lt || pcmp x y == some .eq

/-- Total order extending `pcmp`, as `OrderedFloat` does: NaN compares
greater than everything and equal to itself.  In non-panicking executions the
sort never consults the NaN rows. -/
def cmpT (x y : F) : Ordering :=
  match pcmp x y with
  | some o => o
  | none => if x.isNaN && y.isNaN then .eq else if x.isNaN then .gt else .lt

/-- IEEE negation. -/
def neg : F → F
  | nan => nan
  | posInf => negInf
  | negInf => posInf
  | num a => num (-a)

/-- IEEE addition (exact on finite values). -/
def add : F → F → F
  | nan, _ => nan
  | _, nan => nan
  | posInf, negInf => nan
  | negInf, posInf => nan
  | posInf, _ => posInf
  | _, posInf => posInf
  | negInf, _ => negInf
  | _, negInf => negInf
  | num a, num b => num (a + b)

/-- IEEE subtraction. -/
def sub (x y : F) : F := x.add y.neg

/-- IEEE multiplication (exact on finite values). -/
def mul : F → F → F
  | nan, _ => nan
  | _, nan => nan
  | posInf, posInf => posInf
  | posInf, negInf => negInf
  | negInf, posInf => negInf
  | negInf, negInf => posInf
  | posInf, num b => if b = 0 then nan else if 0 < b then posInf else negInf
  | negInf, num b => if b = 0 then nan else if 0 < b then negInf else posInf
  | num a, posInf => if a = 0 then nan else if 0 < a then posInf else negInf
  | num a, negInf => if a = 0 then nan else if 0 < a then negInf else posInf
  | num a, num b => num (a * b)

/-- IEEE division (exact on finite values; the sign of zero is conflated with
`+0`, so `x / 0` for negative finite `x` yields `negInf` and `x / ±inf`
yields `0`). -/
def div : F → F → F
  | nan, _ => nan
  | _, nan => nan
  | posInf, posInf => nan
  | posInf, negInf => nan
  | negInf, posInf => nan
  | negInf, negInf => nan
  | posInf, num b => if 0 ≤ b then posInf else negInf
  | negInf, num b => if 0 ≤ b then negInf else posInf
  | num _, posInf => num 0
  | num _, negInf => num 0
  | num a, num b =>
    if b = 0 then (if a = 0 then nan else if 0 < a then posInf else negInf)
    else num (a / b)

end F

/-- An order-book entry `(price, size)`, both `f64`. -/
abbrev Entry := F × F

/-- Model of `IndexMap<OrderedFloat<f64>, f64>` as its underlying insertion-ordered
list of key-value pairs.  `OrderedFloat` equality coincides with structural
equality of `F` (NaN equals NaN; signed zeros are conflated). -/
abbrev IMap := List Entry

/-- Model of `IndexMap::contains_key`. -/
def hasKey (m : IMap) (k : F) : Bool := m.any (fun e => e.1 == k)

/-- Model of `IndexMap::insert`: if an equal key is present, the stored key keeps its
place and its value is updated; otherwise the pair is appended at the end. -/
def imInsert (m : IMap) (k v : F) : IMap :=
  if hasKey m k then m.map (fun e => if e.1 == k then (e.1, v) else e)
  else m ++ [(k, v)]

/-- Model of `IndexMap::swap_remove`: removes the (unique) entry with the given key by
swapping the map's last entry into its slot and popping the end; absent keys
leave the map unchanged. -/
def imSwapRemove : IMap → F → IMap
  | [], _ => []
  | e :: rest, k =>
    if e.1 == k then
      match rest.getLast? with
      | none => []
      | some lastE => lastE :: rest.dropLast
    else e :: imSwapRemove rest k

/-- Model of `IndexMap::get`, returning the stored size for a price key. -/
def mlookup (m : IMap) (k : F) : Option F :=
  (m.find? (fun e => e.1 == k)).map Prod.snd

/-- The "may come no later than" relation induced by a Rust comparator:
`sort_by` orders `a` before `b` whenever `c a b ≠ Greater`. -/
def entryLe (c : F → F → Ordering) (a b : Entry) : Bool :=
  !(c a.1 b.1 == Ordering.gt)

/-- One step of a stable insertion: place `x` before the first element it may
precede. -/
def insEntry (le : Entry → Entry → Bool) (x : Entry) : List Entry → List Entry
  | [] => [x]
  | y :: ys => if le x y then x :: y :: ys else y :: insEntry le x ys

/-- Stable insertion sort, modelling `Vec::sort_by` (stable, comparator
total on the values actually compared). -/
def sortByLe (le : Entry → Entry → Bool) : List Entry → List Entry
  | [] => []
  | x :: xs => insEntry le x (sortByLe le xs)

/-- Bid comparator `|a, b| b.0.partial_cmp(&a.0).unwrap()` (price descending),
totalised by `cmpT`. -/
def cDesc (x y : F) : Ordering := F.cmpT y x

/-- Ask comparator `|a, b| a.0.partial_cmp(&b.0).unwrap()` (price ascending),
totalised by `cmpT`. -/
def cAsc (x y : F) : Ordering := F.cmpT x y

/-- Whether a `sort_by` call with a `partial_cmp(..).unwrap()` comparator
panics: exactly when the slice has length ≥ 2 (so every element is compared
at least once) and some key is NaN. -/
def sortAborts (l : List Entry) : Bool :=
  decide (2 ≤ l.length) && l.any (fun e => e.1.isNaN)

/-- The `L2Book` state: the two `IndexMap` sides. -/
structure Book where
  bids : IMap
  asks : IMap
deriving DecidableEq

/-- Model of `L2Book::new` / `Default::default`. -/
def Book.empty : Book := ⟨[], []⟩

/-- Model of `L2Book::clear`. -/
def clearB (_b : Book) : Book := Book.empty

/-- Unconditional insertion step used by `reorder`'s rebuild loops. -/
def insStep (m : IMap) (e : Entry) : IMap := imInsert m e.1 e.2

/-- The snapshot insertion loop body: `if s > 0.0 { map.insert(p, s) }`. -/
def snapStep (m : IMap) (e : Entry) : IMap :=
  if F.gtb e.2 (F.num 0) then insStep m e else m

/-- Model of `L2Book::apply_snapshot`: clear both sides, sort the raw bid input
descending (possible panic), insert positive-size bids, sort the raw ask
input ascending (possible panic), insert positive-size asks.
`Except.error σ` models a panic observed with book state `σ`. -/
def applySnapshot (_b : Book) (bids asks : List Entry) : Except Book Book :=
  if sortAborts bids then .error Book.empty
  else
    let newBids := (sortByLe (entryLe cDesc) bids).foldl snapStep []
    if sortAborts asks then .error ⟨newBids, []⟩
    else .ok ⟨newBids, (sortByLe (entryLe cAsc) asks).foldl snapStep []⟩

/-- The per-entry body of the `apply_delta` loops:
`if s > 0.0 { insert } else { swap_remove }`. -/
def deltaStep (m : IMap) (e : Entry) : IMap :=
  if F.gtb e.2 (F.num 0) then imInsert m e.1 e.2 else imSwapRemove m e.1

/-- One side of `L2Book::reorder`: collect the side, sort it by the side's
comparator, reinsert into a cleared map. -/
def rebuild (c : F → F → Ordering) (m : IMap) : IMap :=
  (sortByLe (entryLe c) m).foldl insStep []

/-- Model of `L2Book::apply_delta`: apply every bid entry in order, then every ask
entry, then `reorder` (which sorts both sides and panics when a side of
length ≥ 2 holds a NaN key).  A panic in `reorder` happens before the maps
are cleared, so its observable state keeps the half-applied sides. -/
def applyDelta (b : Book) (bids asks : List Entry) : Except Book Book :=
  let bids1 := bids.foldl deltaStep b.bids
  let asks1 := asks.foldl deltaStep b.asks
  if sortAborts bids1 || sortAborts asks1 then .error ⟨bids1, asks1⟩
  else .ok ⟨rebuild cDesc bids1, rebuild cAsc asks1⟩

/-- Model of `L2Book::best_bid`. -/
def bestBid (b : Book) : Option Entry := b.bids.head?

/-- Model of `L2Book::best_ask`. -/
def bestAsk (b : Book) : Option Entry := b.asks.head?

/-- Model of `L2Book::mid`. -/
def mid (b : Book) : Option F :=
  match bestBid b, bestAsk b with
  | some (bp, _), some (ap, _) =>
    if F.gtb bp (F.num 0) && F.gtb ap (F.num 0)
    then some (F.div (F.add bp ap) (F.num 2)) else none
  | _, _ => none

/-- Model of `L2Book::microprice`. -/
def microprice (b : Book) : Option F :=
  match bestBid b, bestAsk b with
  | some (bp, bs), some (ap, asz) =>
    let total := F.add bs asz
    if F.gtb total (F.num 0) then
      some (F.add (F.mul bp (F.div asz total)) (F.mul ap (F.div bs total)))
    else mid b
  | _, _ => mid b

/-- Iterator sum of the sizes of the first `depth` levels of a side
(`iter().take(depth).map(..).sum()`). -/
def volTo (m : IMap) (depth : Nat) : F :=
  ((m.take depth).map Prod.snd).foldl F.add (F.num 0)

/-- Model of `L2Book::imbalance`. -/
def imbalance (b : Book) (depth : Nat) : F :=
  let bidVol := volTo b.bids depth
  let askVol := volTo b.asks depth
  let tot := F.add bidVol askVol
  if tot == F.num 0 then F.num 0 else F.div (F.sub bidVol askVol) tot

/-! ### Properties of the comparators -/

namespace F

theorem qcmp_lt_iff {a b : ℚ} : qcmp a b = .lt ↔ a < b := by
  unfold qcmp; split_ifs with h1 h2 <;> simp [h1]

theorem qcmp_gt_iff {a b : ℚ} : qcmp a b = .gt ↔ b < a := by
  unfold qcmp; split_ifs with h1 h2
  · simp [lt_asymm h1]
  · simp [h2]
  · simp [h2]

theorem qcmp_eq_iff {a b : ℚ} : qcmp a b = .eq ↔ a = b := by
  unfold qcmp; split_ifs with h1 h2
  · simp [ne_of_lt h1]
  · simp [ne_of_gt h2]
  · simp [le_antisymm (not_lt.mp h2) (not_lt.mp h1)]

theorem cmpT_eq_iff {x y : F} : cmpT x y = .eq ↔ x = y := by
  cases x <;> cases y <;> simp [cmpT, pcmp, isNaN, qcmp_eq_iff]

theorem cmpT_gt_iff_lt {x y : F} : cmpT x y = .gt ↔ cmpT y x = .lt := by
  cases x <;> cases y <;> simp [cmpT, pcmp, isNaN, qcmp_lt_iff, qcmp_gt_iff]

theorem cmpT_le_trans {x y z : F} :
    cmpT x y ≠ .gt → cmpT y z ≠ .gt → cmpT x z ≠ .gt := by
  cases x <;> cases y <;> cases z <;>
    simp [cmpT, pcmp, isNaN, qcmp_gt_iff, not_lt] <;> (intros; linarith)

theorem pcmp_eq_cmpT {x y : F} (hx : x.isNaN = false) (hy : y.isNaN = false) :
    pcmp x y = some (cmpT x y) := by
  cases x <;> cases y <;> simp_all [pcmp, cmpT, isNaN]

theorem leb_gtb_false {x y : F} (h : leb x y = true) : gtb x y = false := by
  unfold leb gtb at *
  cases hp : pcmp x y with
  | none => simp [hp] at h
  | some o => rw [hp] at h; cases o <;> (revert h; decide)

theorem gtb_leb_false {x y : F} (h : gtb x y = true) : leb x y = false := by
  unfold leb gtb at *
  cases hp : pcmp x y with
  | none => simp [hp] at h
  | some o => rw [hp] at h; cases o <;> (revert h; decide)

end F

theorem cDesc_eq_iff (x y : F) : cDesc x y = .eq ↔ x = y := by
  unfold cDesc; rw [F.cmpT_eq_iff]; exact eq_comm

theorem cAsc_eq_iff (x y : F) : cAsc x y = .eq ↔ x = y := F.cmpT_eq_iff

theorem entryLe_iff {c : F → F → Ordering} {a b : Entry} :
    entryLe c a b = true ↔ c a.1 b.1 ≠ .gt := by
  cases hc : c a.1 b.1 <;> simp only [entryLe, hc] <;> decide

theorem entryLe_false_iff {c : F → F → Ordering} {a b : Entry} :
    entryLe c a b = false ↔ c a.1 b.1 = .gt := by
  cases hc : c a.1 b.1 <;> simp only [entryLe, hc] <;> decide

theorem entryLe_total_cDesc {a b : Entry} (h : entryLe cDesc a b = false) :
    entryLe cDesc b a = true := by
  rw [entryLe_false_iff] at h
  rw [entryLe_iff]
  unfold cDesc at h ⊢
  simp [F.cmpT_gt_iff_lt.mp h]

theorem entryLe_total_cAsc {a b : Entry} (h : entryLe cAsc a b = false) :
    entryLe cAsc b a = true := by
  rw [entryLe_false_iff] at h
  rw [entryLe_iff]
  unfold cAsc at h ⊢
  simp [F.cmpT_gt_iff_lt.mp h]

theorem entryLe_trans_cDesc {a b c : Entry}
    (h1 : entryLe cDesc a b = true) (h2 : entryLe cDesc b c = true) :
    entryLe cDesc a c = true := by
  rw [entryLe_iff] at *
  exact F.cmpT_le_trans h2 h1

theorem entryLe_trans_cAsc {a b c : Entry}
    (h1 : entryLe cAsc a b = true) (h2 : entryLe cAsc b c = true) :
    entryLe cAsc a c = true := by
  rw [entryLe_iff] at *
  exact F.cmpT_le_trans h1 h2

/-! ### Generic properties of the stable insertion sort -/

theorem insEntry_perm (le : Entry → Entry → Bool) (x : Entry) (l : List Entry) :
    (insEntry le x l).Perm (x :: l) := by
  induction l with
  | nil => exact List.Perm.refl _
  | cons y ys ih =>
    rw [insEntry]
    split
    · exact List.Perm.refl _
    · exact (ih.cons y).trans (List.Perm.swap x y ys)

theorem sortByLe_perm (le : Entry → Entry → Bool) (l : List Entry) :
    (sortByLe le l).Perm l := by
  induction l with
  | nil => exact List.Perm.refl _
  | cons x xs ih => exact (insEntry_perm le x (sortByLe le xs)).trans (ih.cons x)

theorem insEntry_pairwise {le : Entry → Entry → Bool}
    (htot : ∀ a b, le a b = false → le b a = true)
    (htrans : ∀ a b c, le a b = true → le b c = true → le a c = true)
    (x : Entry) {l : List Entry} (h : l.Pairwise (fun a b => le a b = true)) :
    (insEntry le x l).Pairwise (fun a b => le a b = true) := by
  induction l with
  | nil => simp [insEntry]
  | cons y ys ih =>
    rw [insEntry]
    rcases List.pairwise_cons.mp h with ⟨hy, hys⟩
    by_cases hxy : le x y = true
    · rw [if_pos hxy]
      refine List.pairwise_cons.mpr ⟨fun b hb => ?_, h⟩
      rcases List.mem_cons.mp hb with rfl | hb
      · exact hxy
      · exact htrans x y b hxy (hy b hb)
    · rw [if_neg hxy]
      refine List.pairwise_cons.mpr ⟨fun b hb => ?_, ih hys⟩
      rcases List.mem_cons.mp ((insEntry_perm le x ys).mem_iff.mp hb) with rfl | hb
      · exact htot _ y (by simpa using hxy)
      · exact hy b hb

theorem sortByLe_pairwise {le : Entry → Entry → Bool}
    (htot : ∀ a b, le a b = false → le b a = true)
    (htrans : ∀ a b c, le a b = true → le b c = true → le a c = true)
    (l : List Entry) :
    (sortByLe le l).Pairwise (fun a b => le a b = true) := by
  induction l with
  | nil => simp [sortByLe]
  | cons x xs ih => exact insEntry_pairwise htot htrans x ih

theorem insEntry_filter_key {c : F → F → Ordering}
    (hkeyEq : ∀ x y : F, c x y = .eq ↔ x = y) (x : Entry) (l : List Entry) (p : F) :
    (insEntry (entryLe c) x l).filter (fun e => e.1 == p) =
      if x.1 == p then x :: l.filter (fun e => e.1 == p)
      else l.filter (fun e => e.1 == p) := by
  induction l with
  | nil => simp [insEntry, List.filter_cons]
  | cons y ys ih =>
    rw [insEntry]
    by_cases hxy : entryLe c x y = true
    · rw [if_pos hxy, List.filter_cons, List.filter_cons]
    · have hgt : c x.1 y.1 = .gt :=
        entryLe_false_iff.mp (by simpa using hxy)
      have hne : x.1 ≠ y.1 := fun he => by
        rw [he, (hkeyEq y.1 y.1).mpr rfl] at hgt; cases hgt
      rw [if_neg hxy, List.filter_cons, ih]
      by_cases hxp : (x.1 == p) = true
      · have hyp : (y.1 == p) = false := by
          rcases eq_or_ne y.1 p with h | h
        -- y.1 = p would force x.1 = y.1, contradicting hne
          · exact absurd ((beq_iff_eq.mp hxp).trans h.symm) hne
          · simpa using h
        simp [hxp, hyp, List.filter_cons]
      · have hxp' : (x.1 == p) = false := by simpa using hxp
        simp only [hxp', if_false, List.filter_cons]
        rfl

theorem sortByLe_filter_key {c : F → F → Ordering}
    (hkeyEq : ∀ x y : F, c x y = .eq ↔ x = y) (l : List Entry) (p : F) :
    (sortByLe (entryLe c) l).filter (fun e => e.1 == p) =
      l.filter (fun e => e.1 == p) := by
  induction l with
  | nil => rfl
  | cons x xs ih =>
    rw [sortByLe, insEntry_filter_key hkeyEq, List.filter_cons, ih]

/-! ### Properties of the map operations -/

/-- A well-formed `IndexMap` has pairwise-distinct keys. -/
def NodupKeys (m : IMap) : Prop := m.Pairwise (fun a b => a.1 ≠ b.1)

theorem hasKey_false_iff {m : IMap} {k : F} :
    hasKey m k = false ↔ ∀ e ∈ m, e.1 ≠ k := by
  simp [hasKey]

theorem hasKey_true_iff {m : IMap} {k : F} :
    hasKey m k = true ↔ ∃ e ∈ m, e.1 = k := by
  simp [hasKey]

theorem imInsert_key_fun {k : F} {v : F} (e : Entry) :
    ((fun e : Entry => if e.1 == k then (e.1, v) else e) e).1 = e.1 := by
  by_cases h : (e.1 == k) = true <;> simp [h]

theorem mlookup_imInsert_self (m : IMap) (k v : F) :
    mlookup (imInsert m k v) k = some v := by
  unfold imInsert
  by_cases hk : hasKey m k = true
  · rw [if_pos hk]
    unfold mlookup
    rw [List.find?_map]
    have hfun : ((fun e : Entry => e.1 == k) ∘
        (fun e : Entry => if e.1 == k then (e.1, v) else e)) =
        (fun e : Entry => e.1 == k) := by
      funext e
      simp only [Function.comp_apply, imInsert_key_fun]
    rw [hfun]
    obtain ⟨e₀, he₀m, he₀⟩ := hasKey_true_iff.mp hk
    have hsome : (m.find? (fun e => e.1 == k)).isSome :=
      List.find?_isSome.mpr ⟨e₀, he₀m, by simp [he₀]⟩
    obtain ⟨e₁, he₁⟩ := Option.isSome_iff_exists.mp hsome
    have hp := List.find?_some he₁
    simp only [beq_iff_eq] at hp
    rw [he₁]
    simp [hp]
  · rw [if_neg hk]
    unfold mlookup
    rw [List.find?_append]
    have hnone : m.find? (fun e => e.1 == k) = none := by
      rw [List.find?_eq_none]
      intro e he
      have := hasKey_false_iff.mp (by simpa using hk) e he
      simp [this]
    rw [hnone]
    simp [List.find?]

theorem mlookup_imInsert_other (m : IMap) (k v k' : F) (h : k' ≠ k) :
    mlookup (imInsert m k v) k' = mlookup m k' := by
  unfold imInsert
  by_cases hk : hasKey m k = true
  · rw [if_pos hk]
    unfold mlookup
    rw [List.find?_map]
    have hfun : ((fun e : Entry => e.1 == k') ∘
        (fun e : Entry => if e.1 == k then (e.1, v) else e)) =
        (fun e : Entry => e.1 == k') := by
      funext e
      simp only [Function.comp_apply, imInsert_key_fun]
    rw [hfun]
    cases hf : m.find? (fun e => e.1 == k') with
    | none => simp
    | some e₀ =>
      have hp := List.find?_some hf
      simp only [beq_iff_eq] at hp
      simp [hp, h]
  · rw [if_neg hk]
    unfold mlookup
    rw [List.find?_append]
    have hone : List.find? (fun e => e.1 == k') [(k, v)] = none := by
      have hbe : (k == k') = false := by simp; exact fun he => h he.symm
      simp [List.find?, hbe]
    rw [hone]
    simp

theorem mlookup_mem {m : IMap} {k v : F} (h : mlookup m k = some v) :
    (k, v) ∈ m := by
  unfold mlookup at h
  cases hf : m.find? (fun e => e.1 == k) with
  | none => rw [hf] at h; cases h
  | some e₀ =>
    rw [hf] at h
    have hk0 := List.find?_some hf
    simp only [beq_iff_eq] at hk0
    have hv : e₀.2 = v := by simpa using h
    have hm : e₀ ∈ m := List.mem_of_find?_eq_some hf
    have hkv : (k, v) = e₀ := by
      obtain ⟨a, b⟩ := e₀
      simp only at hk0 hv
      simp [hk0, hv]
    rwa [hkv]

theorem mlookup_eq_none_iff {m : IMap} {k : F} :
    mlookup m k = none ↔ ∀ e ∈ m, e.1 ≠ k := by
  unfold mlookup
  simp [Option.map_eq_none', List.find?_eq_none]

theorem mlookup_of_mem {m : IMap} {k v : F} (hnd : NodupKeys m)
    (hm : (k, v) ∈ m) : mlookup m k = some v := by
  induction m with
  | nil => cases hm
  | cons e rest ih =>
    rcases List.mem_cons.mp hm with he | ht
    · rw [← he]
      unfold mlookup
      rw [List.find?_cons_of_pos _ (by simp)]
      rfl
    · have hke : e.1 ≠ k := by
        intro hek
        exact (List.pairwise_cons.mp hnd).1 (k, v) ht hek
      unfold mlookup
      rw [List.find?_cons_of_neg _ (by simp [hke])]
      exact ih (List.pairwise_cons.mp hnd).2 ht

theorem countP_key_one {m : IMap} {k : F} (hnd : NodupKeys m)
    (hm : ∃ v, (k, v) ∈ m) : m.countP (fun e => e.1 == k) = 1 := by
  induction m with
  | nil => obtain ⟨v, hv⟩ := hm; cases hv
  | cons e rest ih =>
    rcases List.pairwise_cons.mp hnd with ⟨hhead, htail⟩
    by_cases hek : e.1 = k
    · have hzero : rest.countP (fun e => e.1 == k) = 0 := by
        rw [List.countP_eq_zero]
        intro a ha
        have hne : a.1 ≠ k := fun hc => hhead a ha (hek.trans hc.symm)
        simp [hne]
      rw [List.countP_cons, hzero]
      simp [hek]
    · obtain ⟨v, hv⟩ := hm
      rcases List.mem_cons.mp hv with hve | hvt
      · exact absurd (congrArg Prod.fst hve).symm hek
      · rw [List.countP_cons]
        have hbe : (e.1 == k) = false := by simp [hek]
        simp [hbe, ih htail ⟨v, hvt⟩]

/-! ### Properties of `imSwapRemove` -/

theorem imSwapRemove_perm (m : IMap) (k : F) :
    (imSwapRemove m k).Perm (m.eraseP (fun e => e.1 == k)) := by
  induction m with
  | nil => exact List.Perm.refl _
  | cons e rest ih =>
    by_cases he : (e.1 == k) = true
    · rw [imSwapRemove, if_pos he, List.eraseP_cons, he, cond_true]
      cases hl : rest.getLast? with
      | none =>
        have : rest = [] := by
          cases rest with
          | nil => rfl
          | cons a as => rw [List.getLast?_eq_getLast _ (by simp)] at hl; cases hl
        rw [this]
      | some lastE =>
        have hne : rest ≠ [] := by
          intro hnil; rw [hnil] at hl; cases hl
        have hlast : rest.getLast hne = lastE := by
          rw [List.getLast?_eq_getLast rest hne] at hl
          exact (Option.some.injEq _ _).mp hl
        have hdec : rest.dropLast ++ [lastE] = rest := by
          rw [← hlast]; exact List.dropLast_concat_getLast hne
        calc (lastE :: rest.dropLast).Perm (rest.dropLast ++ [lastE]) :=
              (List.perm_append_singleton _ _).symm
          _ = rest := hdec
    · have hbe : (e.1 == k) = false := by simpa using he
      rw [imSwapRemove, if_neg he, List.eraseP_cons, hbe, cond_false]
      exact ih.cons e

theorem imSwapRemove_id {m : IMap} {k : F} (h : ∀ e ∈ m, e.1 ≠ k) :
    imSwapRemove m k = m := by
  induction m with
  | nil => rfl
  | cons e rest ih =>
    rw [imSwapRemove, if_neg (by simp [h e (by simp)])]
    rw [ih (fun f hf => h f (List.mem_cons_of_mem e hf))]

theorem imSwapRemove_subset {m : IMap} {k : F} : imSwapRemove m k ⊆ m :=
  fun _ ha =>
    List.eraseP_subset m ((imSwapRemove_perm m k).subset ha)

theorem imSwapRemove_nodup {m : IMap} {k : F} (h : NodupKeys m) :
    NodupKeys (imSwapRemove m k) := by
  have h1 : NodupKeys (m.eraseP (fun e => e.1 == k)) :=
    List.Pairwise.sublist (List.eraseP_sublist m) h
  exact (List.Perm.pairwise_iff (fun hab => Ne.symm hab) (imSwapRemove_perm m k)).mpr h1

theorem eraseP_key_none {m : IMap} {k : F} (hnd : NodupKeys m) :
    ∀ e ∈ m.eraseP (fun e => e.1 == k), e.1 ≠ k := by
  induction m with
  | nil => intro e he; cases he
  | cons f rest ih =>
    rcases List.pairwise_cons.mp hnd with ⟨hhead, htail⟩
    by_cases hf : (f.1 == k) = true
    · rw [List.eraseP_cons, hf, cond_true]
      intro e he hek
      exact hhead e he ((beq_iff_eq.mp hf).trans hek.symm)
    · have hbf : (f.1 == k) = false := by simpa using hf
      rw [List.eraseP_cons, hbf, cond_false]
      intro e he
      rcases List.mem_cons.mp he with rfl | he'
      · simpa using hf
      · exact ih htail e he'

theorem mlookup_imSwapRemove_self {m : IMap} {k : F} (hnd : NodupKeys m) :
    mlookup (imSwapRemove m k) k = none := by
  rw [mlookup_eq_none_iff]
  intro e he
  exact eraseP_key_none hnd e ((imSwapRemove_perm m k).subset he)

theorem mem_imSwapRemove_of_ne {m : IMap} {k : F} {e : Entry}
    (hm : e ∈ m) (hne : e.1 ≠ k) : e ∈ imSwapRemove m k := by
  apply (imSwapRemove_perm m k).mem_iff.mpr
  rw [List.mem_eraseP_of_neg (by simp [hne])]
  exact hm

theorem mlookup_imSwapRemove_other {m : IMap} {k k' : F} (hnd : NodupKeys m)
    (h : k' ≠ k) : mlookup (imSwapRemove m k) k' = mlookup m k' := by
  cases hv : mlookup m k' with
  | some v =>
    exact mlookup_of_mem (imSwapRemove_nodup hnd)
      (mem_imSwapRemove_of_ne (mlookup_mem hv) h)
  | none =>
    rw [mlookup_eq_none_iff] at hv ⊢
    intro e he
    exact hv e (imSwapRemove_subset he)

/-! ### Properties of `imInsert` and the insertion folds -/

theorem imInsert_nodup {m : IMap} {k v : F} (h : NodupKeys m) :
    NodupKeys (imInsert m k v) := by
  unfold imInsert
  by_cases hk : hasKey m k = true
  · rw [if_pos hk]
    refine List.pairwise_map.mpr (h.imp ?_)
    intro a b hab
    rwa [imInsert_key_fun a, imInsert_key_fun b]
  · rw [if_neg hk]
    rw [NodupKeys, List.pairwise_append]
    refine ⟨h, by simp, ?_⟩
    intro a ha b hb
    rcases List.mem_singleton.mp hb with rfl
    simpa using hasKey_false_iff.mp (by simpa using hk) a ha

theorem imInsert_val (P : F → Prop) {m : IMap} {k v : F}
    (hm : ∀ e ∈ m, P e.2) (hv : P v) :
    ∀ e ∈ imInsert m k v, P e.2 := by
  unfold imInsert
  by_cases hk : hasKey m k = true
  · rw [if_pos hk]
    intro e he
    rcases List.mem_map.mp he with ⟨e₀, he₀, rfl⟩
    by_cases h0 : (e₀.1 == k) = true <;> simp [h0]
    · exact hv
    · exact hm e₀ he₀
  · rw [if_neg hk]
    intro e he
    rcases List.mem_append.mp he with he | he
    · exact hm e he
    · rcases List.mem_singleton.mp he with rfl
      exact hv

theorem imInsert_keyP (Q : F → Prop) {m : IMap} {k v : F}
    (hm : ∀ e ∈ m, Q e.1) (hk' : Q k) :
    ∀ e ∈ imInsert m k v, Q e.1 := by
  unfold imInsert
  by_cases hk : hasKey m k = true
  · rw [if_pos hk]
    intro e he
    rcases List.mem_map.mp he with ⟨e₀, he₀, rfl⟩
    rw [imInsert_key_fun e₀]
    exact hm e₀ he₀
  · rw [if_neg hk]
    intro e he
    rcases List.mem_append.mp he with he | he
    · exact hm e he
    · rcases List.mem_singleton.mp he with rfl
      exact hk'

theorem imInsert_length {m : IMap} {k v : F} :
    (imInsert m k v).length ≤ m.length + 1 := by
  unfold imInsert
  by_cases hk : hasKey m k = true
  · rw [if_pos hk, List.length_map]
    omega
  · rw [if_neg hk, List.length_append]
    simp

theorem foldl_insStep_nodup {l : List Entry} :
    ∀ {m : IMap}, NodupKeys m → NodupKeys (l.foldl insStep m) := by
  induction l with
  | nil => intro m h; exact h
  | cons e rest ih =>
    intro m h
    exact ih (imInsert_nodup h)

theorem foldl_insStep_val (P : F → Prop) (l : List Entry) :
    ∀ {m : IMap}, (∀ e ∈ m, P e.2) → (∀ e ∈ l, P e.2) →
    ∀ e ∈ l.foldl insStep m, P e.2 := by
  induction l with
  | nil => intro m hm _; exact hm
  | cons e rest ih =>
    intro m hm hl
    exact ih (imInsert_val P hm (hl e (by simp)))
      (fun f hf => hl f (List.mem_cons_of_mem e hf))

theorem foldl_insStep_keyP (Q : F → Prop) (l : List Entry) :
    ∀ {m : IMap}, (∀ e ∈ m, Q e.1) → (∀ e ∈ l, Q e.1) →
    ∀ e ∈ l.foldl insStep m, Q e.1 := by
  induction l with
  | nil => intro m hm _; exact hm
  | cons e rest ih =>
    intro m hm hl
    exact ih (imInsert_keyP Q hm (hl e (by simp)))
      (fun f hf => hl f (List.mem_cons_of_mem e hf))

theorem foldl_insStep_length (l : List Entry) :
    ∀ (m : IMap), (l.foldl insStep m).length ≤ m.length + l.length := by
  induction l with
  | nil => intro m; simp
  | cons e rest ih =>
    intro m
    calc (List.foldl insStep (insStep m e) rest).length
        ≤ (insStep m e).length + rest.length := ih (insStep m e)
      _ ≤ (m.length + 1) + rest.length :=
          Nat.add_le_add_right imInsert_length rest.length
      _ = m.length + (e :: rest).length := by
          simp only [List.length_cons]; omega

theorem foldl_snapStep_eq_filter (l : List Entry) :
    ∀ (m : IMap), l.foldl snapStep m =
      (l.filter (fun e => F.gtb e.2 (F.num 0))).foldl insStep m := by
  induction l with
  | nil => intro m; rfl
  | cons e rest ih =>
    intro m
    rw [List.foldl_cons, List.filter_cons]
    by_cases hp : F.gtb e.2 (F.num 0) = true
    · rw [if_pos hp, List.foldl_cons, snapStep, if_pos hp]
      exact ih (insStep m e)
    · rw [if_neg hp, snapStep, if_neg hp]
      exact ih m

/-- The accumulated map stays strictly sorted while a key-sorted batch is
inserted: the invariant is that all present keys may precede all remaining
batch keys. -/
theorem foldl_insStep_strict {c : F → F → Ordering}
    (hkeyEq : ∀ x y : F, c x y = .eq ↔ x = y) (l : List Entry) :
    ∀ (m : IMap), m.Pairwise (fun a b => c a.1 b.1 = .lt) →
    (∀ a ∈ m, ∀ b ∈ l, entryLe c a b = true) →
    l.Pairwise (fun a b => entryLe c a b = true) →
    (l.foldl insStep m).Pairwise (fun a b => c a.1 b.1 = .lt) := by
  induction l with
  | nil => intro m hm _ _; exact hm
  | cons e rest ih =>
    intro m hm hml hl
    rw [List.foldl_cons]
    rcases List.pairwise_cons.mp hl with ⟨hle, hlt⟩
    refine ih (insStep m e) ?_ ?_ hlt
    · show (imInsert m e.1 e.2).Pairwise (fun a b => c a.1 b.1 = .lt)
      unfold imInsert
      by_cases hk : hasKey m e.1 = true
      · rw [if_pos hk]
        refine List.pairwise_map.mpr (hm.imp ?_)
        intro a b hab
        rwa [imInsert_key_fun a, imInsert_key_fun b]
      · rw [if_neg hk]
        rw [List.pairwise_append]
        refine ⟨hm, by simp, ?_⟩
        intro a ha b hb
        rcases List.mem_singleton.mp hb with rfl
        have hle' : c a.1 e.1 ≠ .gt :=
          entryLe_iff.mp (hml a ha e (by simp))
        show c a.1 e.1 = .lt
        cases ho : c a.1 e.1 with
        | lt => rfl
        | eq =>
          exact absurd (hasKey_true_iff.mpr ⟨a, ha, (hkeyEq _ _).mp ho⟩) hk
        | gt => exact absurd ho hle'
    · intro a ha b hb
      have hkey : ∀ f ∈ m, ∀ b ∈ rest, entryLe c f b = true :=
        fun f hf b hb => hml f hf b (List.mem_cons_of_mem e hb)
      -- `a` is either a rewritten entry of `m` (same key) or `e` itself
      revert ha
      show a ∈ imInsert m e.1 e.2 → _
      unfold imInsert
      by_cases hk : hasKey m e.1 = true
      · rw [if_pos hk]
        intro ha
        rcases List.mem_map.mp ha with ⟨a₀, ha₀, rfl⟩
        have h1 : c a₀.1 b.1 ≠ .gt := entryLe_iff.mp (hkey a₀ ha₀ b hb)
        by_cases h0 : (a₀.1 == e.1) = true <;> simp only [h0, if_true, if_false] <;>
          exact entryLe_iff.mpr h1
      · rw [if_neg hk]
        intro ha
        rcases List.mem_append.mp ha with ha | ha
        · exact hkey a ha b hb
        · rcases List.mem_singleton.mp ha with rfl
          exact hle b hb

/-- Inserting a duplicate-free batch of fresh keys appends it verbatim. -/
theorem foldl_insStep_fresh (l : List Entry) :
    ∀ (acc : IMap), NodupKeys l → (∀ e ∈ l, hasKey acc e.1 = false) →
    l.foldl insStep acc = acc ++ l := by
  induction l with
  | nil => intro acc _ _; simp
  | cons e rest ih =>
    intro acc hnd hfresh
    rw [List.foldl_cons]
    have hstep : insStep acc e = acc ++ [e] := by
      unfold insStep imInsert
      rw [if_neg (by simp [hfresh e (by simp)])]
    have hnd' := (List.pairwise_cons.mp hnd).2
    have hfresh' : ∀ f ∈ rest, hasKey (acc ++ [e]) f.1 = false := by
      intro f hf
      rw [hasKey_false_iff]
      intro g hg
      rcases List.mem_append.mp hg with hg | hg
      · exact hasKey_false_iff.mp (hfresh f (List.mem_cons_of_mem e hf)) g hg
      · rcases List.mem_singleton.mp hg with rfl
        exact (List.pairwise_cons.mp hnd).1 f hf
    rw [hstep, ih (acc ++ [e]) hnd' hfresh']
    simp

/-! ### Properties of `deltaStep`, `rebuild` and the operations -/

theorem deltaStep_nodup {m : IMap} {e : Entry} (h : NodupKeys m) :
    NodupKeys (deltaStep m e) := by
  unfold deltaStep
  by_cases hp : F.gtb e.2 (F.num 0) = true
  · rw [if_pos hp]; exact imInsert_nodup h
  · rw [if_neg hp]; exact imSwapRemove_nodup h

theorem foldl_deltaStep_nodup {l : List Entry} :
    ∀ {m : IMap}, NodupKeys m → NodupKeys (l.foldl deltaStep m) := by
  induction l with
  | nil => intro m h; exact h
  | cons e rest ih => intro m h; exact ih (deltaStep_nodup h)

theorem foldl_deltaStep_val (l : List Entry) :
    ∀ {m : IMap}, (∀ e ∈ m, F.gtb e.2 (F.num 0) = true) →
    ∀ e ∈ l.foldl deltaStep m, F.gtb e.2 (F.num 0) = true := by
  induction l with
  | nil => intro m hm; exact hm
  | cons e rest ih =>
    intro m hm
    refine ih ?_
    unfold deltaStep
    by_cases hp : F.gtb e.2 (F.num 0) = true
    · rw [if_pos hp]
      exact imInsert_val (fun s => F.gtb s (F.num 0) = true) hm hp
    · rw [if_neg hp]; exact fun f hf => hm f (imSwapRemove_subset hf)

theorem mlookup_foldl_deltaStep {p : F} {l : List Entry} :
    ∀ {m : IMap}, NodupKeys m → (∀ e ∈ l, e.1 ≠ p) →
    mlookup (l.foldl deltaStep m) p = mlookup m p := by
  induction l with
  | nil => intro m _ _; rfl
  | cons e rest ih =>
    intro m hnd hne
    rw [List.foldl_cons]
    have hstep : mlookup (deltaStep m e) p = mlookup m p := by
      unfold deltaStep
      by_cases hp : F.gtb e.2 (F.num 0) = true
      · rw [if_pos hp]
        exact mlookup_imInsert_other m e.1 e.2 p
          (fun hc => hne e (by simp) hc.symm)
      · rw [if_neg hp]
        exact mlookup_imSwapRemove_other hnd
          (fun hc => hne e (by simp) hc.symm)
    rw [ih (deltaStep_nodup hnd) (fun f hf => hne f (List.mem_cons_of_mem e hf)),
      hstep]

theorem sortByLe_nodup {le : Entry → Entry → Bool} {l : List Entry}
    (h : NodupKeys l) : NodupKeys (sortByLe le l) :=
  (List.Perm.pairwise_iff (fun hab => Ne.symm hab) (sortByLe_perm le l)).mpr h

theorem mlookup_perm {m m' : IMap} {k : F} (hnd : NodupKeys m)
    (hp : m.Perm m') : mlookup m k = mlookup m' k := by
  have hnd' : NodupKeys m' :=
    (List.Perm.pairwise_iff (fun hab => Ne.symm hab) hp).mp hnd
  cases hv : mlookup m k with
  | some v =>
    exact (mlookup_of_mem hnd' (hp.subset (mlookup_mem hv))).symm
  | none =>
    symm
    rw [mlookup_eq_none_iff] at hv ⊢
    intro e he
    exact hv e (hp.symm.subset he)

theorem rebuild_eq_sorted {c : F → F → Ordering} {m : IMap}
    (h : NodupKeys m) : rebuild c m = sortByLe (entryLe c) m := by
  unfold rebuild
  rw [foldl_insStep_fresh _ [] (sortByLe_nodup h) (fun e _ => rfl)]
  rfl

theorem mlookup_rebuild {c : F → F → Ordering} {m : IMap} {k : F}
    (h : NodupKeys m) : mlookup (rebuild c m) k = mlookup m k := by
  rw [rebuild_eq_sorted h]
  exact (mlookup_perm h (sortByLe_perm (entryLe c) m).symm).symm

theorem sortAborts_false_noNaN {l : List Entry} (h : sortAborts l = false)
    (hlen : 2 ≤ l.length) : ∀ e ∈ l, e.1.isNaN = false := by
  unfold sortAborts at h
  rcases Bool.and_eq_false_iff.mp h with h | h
  · exact absurd hlen (by simpa using h)
  · intro e he
    simpa using (List.any_eq_false.mp h) e he

/-- Unfolding of a successful `apply_snapshot`. -/
theorem applySnapshot_ok {b : Book} {bids asks : List Entry} {b2 : Book}
    (h : applySnapshot b bids asks = .ok b2) :
    sortAborts bids = false ∧ sortAborts asks = false ∧
    b2 = ⟨(sortByLe (entryLe cDesc) bids).foldl snapStep [],
          (sortByLe (entryLe cAsc) asks).foldl snapStep []⟩ := by
  unfold applySnapshot at h
  by_cases h1 : sortAborts bids = true
  · rw [if_pos h1] at h; cases h
  · rw [if_neg h1] at h
    simp only at h
    by_cases h2 : sortAborts asks = true
    · rw [if_pos h2] at h; cases h
    · rw [if_neg h2] at h
      refine ⟨by simpa using h1, by simpa using h2, ?_⟩
      cases h
      rfl

/-- Unfolding of a successful `apply_delta`. -/
theorem applyDelta_ok {b : Book} {bids asks : List Entry} {b2 : Book}
    (h : applyDelta b bids asks = .ok b2) :
    sortAborts (bids.foldl deltaStep b.bids) = false ∧
    sortAborts (asks.foldl deltaStep b.asks) = false ∧
    b2 = ⟨rebuild cDesc (bids.foldl deltaStep b.bids),
          rebuild cAsc (asks.foldl deltaStep b.asks)⟩ := by
  unfold applyDelta at h
  simp only at h
  by_cases h1 : (sortAborts (bids.foldl deltaStep b.bids) ||
      sortAborts (asks.foldl deltaStep b.asks)) = true
  · rw [if_pos h1] at h; cases h
  · rw [if_neg h1] at h
    rcases Bool.or_eq_false_iff.mp (by simpa using h1) with ⟨ha, hb⟩
    refine ⟨ha, hb, ?_⟩
    cases h
    rfl

/-! ### The side invariant and reachable book states -/

/-- Invariant of one side of the book: strictly sorted by the side's
comparator, all sizes strictly positive, and (when the side holds at least
two levels) no NaN key. -/
def SideOK (c : F → F → Ordering) (m : IMap) : Prop :=
  m.Pairwise (fun a b => c a.1 b.1 = .lt) ∧
  (∀ e ∈ m, F.gtb e.2 (F.num 0) = true) ∧
  (2 ≤ m.length → ∀ e ∈ m, e.1.isNaN = false)

/-- Invariant of the whole book. -/
def Inv (b : Book) : Prop := SideOK cDesc b.bids ∧ SideOK cAsc b.asks

theorem sideOK_nodup {c : F → F → Ordering}
    (hkeyEq : ∀ x y : F, c x y = .eq ↔ x = y) {m : IMap}
    (h : SideOK c m) : NodupKeys m :=
  h.1.imp (fun hab heq => by
    rw [heq, (hkeyEq _ _).mpr rfl] at hab; cases hab)

/-- One side of a successful snapshot satisfies the side invariant. -/
theorem snap_side_ok {c : F → F → Ordering}
    (hkeyEq : ∀ x y : F, c x y = .eq ↔ x = y)
    (htot : ∀ a b, entryLe c a b = false → entryLe c b a = true)
    (htrans : ∀ a b d, entryLe c a b = true → entryLe c b d = true →
      entryLe c a d = true)
    {l : List Entry} (habort : sortAborts l = false) :
    SideOK c ((sortByLe (entryLe c) l).foldl snapStep []) := by
  rw [foldl_snapStep_eq_filter]
  have hsorted := sortByLe_pairwise htot htrans l
  refine ⟨?_, ?_, ?_⟩
  · exact foldl_insStep_strict hkeyEq _ [] (by simp) (by simp)
      (List.Pairwise.filter _ hsorted)
  · exact foldl_insStep_val (fun s => F.gtb s (F.num 0) = true) _ (by simp)
      (fun e he => by simpa using (List.mem_filter.mp he).2)
  · intro hlen e he
    have hlen2 : 2 ≤ l.length := by
      have h1 := foldl_insStep_length
        ((sortByLe (entryLe c) l).filter (fun e => F.gtb e.2 (F.num 0))) []
      have h2 : ((sortByLe (entryLe c) l).filter
          (fun e => F.gtb e.2 (F.num 0))).length ≤ l.length := by
        calc ((sortByLe (entryLe c) l).filter
            (fun e => F.gtb e.2 (F.num 0))).length
            ≤ (sortByLe (entryLe c) l).length := List.length_filter_le _ _
          _ = l.length := (sortByLe_perm (entryLe c) l).length_eq
      simp only [List.length_nil] at h1
      omega
    have hnn := sortAborts_false_noNaN habort hlen2
    refine foldl_insStep_keyP (fun x => x.isNaN = false) _ (by simp) ?_ e he
    intro f hf
    exact hnn f ((sortByLe_perm (entryLe c) l).subset (List.mem_of_mem_filter hf))

/-- One side of a successful delta satisfies the side invariant. -/
theorem delta_side_ok {c : F → F → Ordering}
    (hkeyEq : ∀ x y : F, c x y = .eq ↔ x = y)
    (htot : ∀ a b, entryLe c a b = false → entryLe c b a = true)
    (htrans : ∀ a b d, entryLe c a b = true → entryLe c b d = true →
      entryLe c a d = true)
    {m : IMap} {l : List Entry}
    (hnd : NodupKeys m) (hpos : ∀ e ∈ m, F.gtb e.2 (F.num 0) = true)
    (habort : sortAborts (l.foldl deltaStep m) = false) :
    SideOK c (rebuild c (l.foldl deltaStep m)) := by
  have hnd1 : NodupKeys (l.foldl deltaStep m) := foldl_deltaStep_nodup hnd
  have hpos1 := foldl_deltaStep_val l hpos
  unfold rebuild
  have hsorted := sortByLe_pairwise htot htrans (l.foldl deltaStep m)
  refine ⟨?_, ?_, ?_⟩
  · exact foldl_insStep_strict hkeyEq _ [] (by simp) (by simp) hsorted
  · exact foldl_insStep_val (fun s => F.gtb s (F.num 0) = true) _ (by simp)
      (fun e he => hpos1 e ((sortByLe_perm _ _).subset he))
  · intro hlen e he
    have hlen2 : 2 ≤ (l.foldl deltaStep m).length := by
      have h1 := foldl_insStep_length
        (sortByLe (entryLe c) (l.foldl deltaStep m)) []
      have h2 := (sortByLe_perm (entryLe c) (l.foldl deltaStep m)).length_eq
      simp only [List.length_nil] at h1
      omega
    have hnn := sortAborts_false_noNaN habort hlen2
    refine foldl_insStep_keyP (fun x => x.isNaN = false) _ (by simp) ?_ e he
    intro f hf
    exact hnn f ((sortByLe_perm _ _).subset hf)

/-- The book states reachable from the empty book through successful public
operations (`clear`, `apply_snapshot`, `apply_delta`). -/
inductive Reachable : Book → Prop where
  | empty : Reachable Book.empty
  | clearR {b : Book} : Reachable b → Reachable (clearB b)
  | snap {b : Book} {bids asks : List Entry} {b2 : Book} :
      Reachable b → applySnapshot b bids asks = .ok b2 → Reachable b2
  | delta {b : Book} {bids asks : List Entry} {b2 : Book} :
      Reachable b → applyDelta b bids asks = .ok b2 → Reachable b2

theorem inv_empty : Inv Book.empty := by
  refine ⟨⟨List.Pairwise.nil, ?_, ?_⟩, ⟨List.Pairwise.nil, ?_, ?_⟩⟩ <;>
    simp [Book.empty]

theorem snap_ok_inv {b : Book} {bids asks : List Entry} {b2 : Book}
    (h : applySnapshot b bids asks = .ok b2) : Inv b2 := by
  obtain ⟨h1, h2, rfl⟩ := applySnapshot_ok h
  exact ⟨snap_side_ok cDesc_eq_iff (fun a b => entryLe_total_cDesc)
      (fun a b d => entryLe_trans_cDesc) h1,
    snap_side_ok cAsc_eq_iff (fun a b => entryLe_total_cAsc)
      (fun a b d => entryLe_trans_cAsc) h2⟩

theorem delta_ok_inv {b : Book} {bids asks : List Entry} {b2 : Book}
    (hb : Inv b) (h : applyDelta b bids asks = .ok b2) : Inv b2 := by
  obtain ⟨h1, h2, rfl⟩ := applyDelta_ok h
  exact ⟨delta_side_ok cDesc_eq_iff (fun a b => entryLe_total_cDesc)
      (fun a b d => entryLe_trans_cDesc)
      (sideOK_nodup cDesc_eq_iff hb.1) hb.1.2.1 h1,
    delta_side_ok cAsc_eq_iff (fun a b => entryLe_total_cAsc)
      (fun a b d => entryLe_trans_cAsc)
      (sideOK_nodup cAsc_eq_iff hb.2) hb.2.2.1 h2⟩

theorem reachable_inv {b : Book} (h : Reachable b) : Inv b := by
  induction h with
  | empty => exact inv_empty
  | clearR _ _ => exact inv_empty
  | snap _ hok _ => exact snap_ok_inv hok
  | delta _ hok ih => exact delta_ok_inv ih hok


/-! ### Last-write-wins lookup through the snapshot insertion loop -/

theorem getLast?_cons_of_getLast? {α : Type} (a : α) {l : List α} {x : α}
    (h : l.getLast? = some x) : (a :: l).getLast? = some x := by
  cases l with
  | nil => cases h
  | cons b bs => rw [List.getLast?_cons_cons]; exact h

theorem mlookup_foldl_snapStep (p : F) (l : List Entry) :
    ∀ (m : IMap),
    mlookup (l.foldl snapStep m) p =
      match (l.filter (fun e => e.1 == p && F.gtb e.2 (F.num 0))).getLast? with
      | some e => some e.2
      | none => mlookup m p := by
  induction l with
  | nil => intro m; rfl
  | cons e rest ih =>
    intro m
    rw [List.foldl_cons, List.filter_cons, ih (snapStep m e)]
    by_cases hq : (e.1 == p && F.gtb e.2 (F.num 0)) = true
    · rw [if_pos hq]
      simp only [Bool.and_eq_true, beq_iff_eq] at hq
      obtain ⟨hkey1, hpos⟩ := hq
      have hstep : mlookup (snapStep m e) p = some e.2 := by
        unfold snapStep insStep
        rw [if_pos hpos, ← hkey1]
        exact mlookup_imInsert_self m e.1 e.2
      cases hrest :
          (rest.filter (fun e => e.1 == p && F.gtb e.2 (F.num 0))).getLast? with
      | none =>
        have hnil : rest.filter (fun e => e.1 == p && F.gtb e.2 (F.num 0)) = [] := by
          by_contra hcon
          have hs := List.getLast?_isSome.mpr hcon
          rw [hrest] at hs
          cases hs
        rw [hnil]
        simpa using hstep
      | some lastE =>
        rw [getLast?_cons_of_getLast? e hrest]
    · rw [if_neg hq]
      have hstep : mlookup (snapStep m e) p = mlookup m p := by
        unfold snapStep insStep
        by_cases hpos : F.gtb e.2 (F.num 0) = true
        · rw [if_pos hpos]
          have hkey : (e.1 == p) = false := by
            cases hk : (e.1 == p) with
            | false => rfl
            | true => exact absurd (by rw [hk, hpos]; rfl) hq
          exact mlookup_imInsert_other m e.1 e.2 p
            (fun hc => by rw [hc] at hkey; simp at hkey)
        · rw [if_neg hpos]
      cases hrest :
          (rest.filter (fun e => e.1 == p && F.gtb e.2 (F.num 0))).getLast? with
      | none => exact hstep
      | some lastE => rfl

/-- The filter of a side for a fixed key: combined predicate commutation plus
the stability of the sort. -/
theorem filter_key_pos_sorted {c : F → F → Ordering}
    (hkeyEq : ∀ x y : F, c x y = .eq ↔ x = y) (l : List Entry) (p : F) :
    (sortByLe (entryLe c) l).filter (fun e => e.1 == p && F.gtb e.2 (F.num 0)) =
      l.filter (fun e => e.1 == p && F.gtb e.2 (F.num 0)) := by
  have hsplit : ∀ l' : List Entry,
      l'.filter (fun e => e.1 == p && F.gtb e.2 (F.num 0)) =
      (l'.filter (fun e => e.1 == p)).filter (fun e => F.gtb e.2 (F.num 0)) := by
    intro l'
    rw [List.filter_filter]
    exact List.filter_congr (fun e _ => Bool.and_comm _ _)
  rw [hsplit, hsplit, sortByLe_filter_key hkeyEq]

/-- Last write wins on one snapshot side. -/
theorem snap_side_lww {c : F → F → Ordering}
    (hkeyEq : ∀ x y : F, c x y = .eq ↔ x = y) (l : List Entry) (p : F)
    (hnd2 : NodupKeys ((sortByLe (entryLe c) l).foldl snapStep []))
    (hl : 2 ≤ (l.filter (fun e => e.1 == p && F.gtb e.2 (F.num 0))).length) :
    mlookup ((sortByLe (entryLe c) l).foldl snapStep []) p =
      ((l.filter (fun e => e.1 == p && F.gtb e.2 (F.num 0))).getLast?).map Prod.snd ∧
    ((sortByLe (entryLe c) l).foldl snapStep []).countP (fun e => e.1 == p) = 1 := by
  have hlook := mlookup_foldl_snapStep p (sortByLe (entryLe c) l) []
  rw [filter_key_pos_sorted hkeyEq] at hlook
  have hne : l.filter (fun e => e.1 == p && F.gtb e.2 (F.num 0)) ≠ [] := by
    intro h0
    rw [h0] at hl
    simp at hl
  obtain ⟨lastE, hlast⟩ := Option.isSome_iff_exists.mp (List.getLast?_isSome.mpr hne)
  rw [hlast] at hlook
  constructor
  · rw [hlook, hlast]
    rfl
  · exact countP_key_one hnd2 ⟨lastE.2, mlookup_mem (by rw [hlook])⟩

/-! ### Conversion of the sorted invariant to the IEEE strict order -/

theorem sideOK_pairwise_ltb_desc {m : IMap} (h : SideOK cDesc m) :
    m.Pairwise (fun a e => F.ltb e.1 a.1 = true) := by
  rcases h with ⟨hs, _, hnan⟩
  match m with
  | [] => exact List.Pairwise.nil
  | [e] => simp
  | e1 :: e2 :: rest =>
    have hn := hnan (by simp)
    refine List.Pairwise.imp_of_mem ?_ hs
    intro a e ha he hab
    unfold F.ltb
    rw [F.pcmp_eq_cmpT (hn e he) (hn a ha)]
    unfold cDesc at hab
    rw [hab]
    rfl

theorem sideOK_pairwise_ltb_asc {m : IMap} (h : SideOK cAsc m) :
    m.Pairwise (fun a e => F.ltb a.1 e.1 = true) := by
  rcases h with ⟨hs, _, hnan⟩
  match m with
  | [] => exact List.Pairwise.nil
  | [e] => simp
  | e1 :: e2 :: rest =>
    have hn := hnan (by simp)
    refine List.Pairwise.imp_of_mem ?_ hs
    intro a e ha he hab
    unfold F.ltb
    rw [F.pcmp_eq_cmpT (hn a ha) (hn e he)]
    unfold cAsc at hab
    rw [hab]
    rfl

theorem ltb_ne {x y : F} (h : F.ltb x y = true) : x ≠ y := by
  intro rfl0
  subst rfl0
  unfold F.ltb at h
  cases x <;> simp [F.pcmp, F.qcmp] at h <;> exact absurd h (by decide)

/-- Observation that `apply_snapshot` reads nothing from the prior book state. -/
theorem applySnapshot_state_free (b b2 : Book) (bids asks : List Entry) :
    applySnapshot b bids asks = applySnapshot b2 bids asks := rfl


/-! ### The claims -/

/-- C1: the claim says a snapshot or delta batch containing a NaN or infinite
price fails with `InvalidPriceError`.  The code has no such error: an
infinite price is accepted and stored (first and fourth conjuncts), a NaN
price in a batch of length ≥ 2 makes the sort comparator's `unwrap` panic
(second conjunct, `Except.error` = panic, not an error return), and a
singleton NaN batch is silently admitted (third conjunct). -/
theorem claim1_nonfinite_prices_not_rejected :
    applySnapshot Book.empty [(F.posInf, F.num 1)] [] =
      .ok ⟨[(F.posInf, F.num 1)], []⟩ ∧
    applySnapshot Book.empty [(F.nan, F.num 1), (F.num 1, F.num 1)] [] =
      .error Book.empty ∧
    applySnapshot Book.empty [(F.nan, F.num 1)] [] =
      .ok ⟨[(F.nan, F.num 1)], []⟩ ∧
    applyDelta Book.empty [(F.posInf, F.num 1)] [] =
      .ok ⟨[(F.posInf, F.num 1)], []⟩ := by
  exact ⟨rfl, rfl, rfl, rfl⟩

/-- C2: the claim says a batch rejected for a non-finite price leaves the
prior state unchanged.  The code panics instead of rejecting, and the panic
leaves the book corrupted: a NaN delta entry is inserted before `reorder`
panics (the book keeps the half-applied side), and `apply_snapshot` clears
the book before sorting, so a NaN snapshot leaves it emptied. -/
theorem claim2_failed_batch_corrupts_state :
    applyDelta ⟨[(F.num 1, F.num 1)], []⟩ [(F.nan, F.num 2)] [] =
      .error ⟨[(F.num 1, F.num 1), (F.nan, F.num 2)], []⟩ ∧
    (⟨[(F.num 1, F.num 1), (F.nan, F.num 2)], []⟩ : Book) ≠
      ⟨[(F.num 1, F.num 1)], []⟩ ∧
    applySnapshot ⟨[(F.num 1, F.num 1)], []⟩
      [(F.nan, F.num 1), (F.num 2, F.num 3)] [] = .error Book.empty ∧
    Book.empty ≠ (⟨[(F.num 1, F.num 1)], []⟩ : Book) := by
  refine ⟨rfl, by decide, rfl, by decide⟩

/-- C3: after every successful operation starting from the empty book, bid
prices are strictly descending in iteration order, ask prices strictly
ascending, and no price repeats on a side (the strict IEEE `<` used here). -/
theorem claim3_sides_sorted (b : Book) (h : Reachable b) :
    b.bids.Pairwise (fun a e => F.ltb e.1 a.1 = true) ∧
    b.asks.Pairwise (fun a e => F.ltb a.1 e.1 = true) ∧
    b.bids.Pairwise (fun a e => a.1 ≠ e.1) ∧
    b.asks.Pairwise (fun a e => a.1 ≠ e.1) := by
  obtain ⟨hb, ha⟩ := reachable_inv h
  have h1 := sideOK_pairwise_ltb_desc hb
  have h2 := sideOK_pairwise_ltb_asc ha
  exact ⟨h1, h2, h1.imp (fun hab => (ltb_ne hab).symm),
    h2.imp (fun hab => ltb_ne hab)⟩

theorem claim3_sides_sorted_witness :
    ([(F.num 101, F.num 5), (F.num 100, F.num 2)] : IMap).Pairwise
      (fun a e => F.ltb e.1 a.1 = true) ∧
    ([(F.num 102, F.num 3), (F.num 103, F.num 1)] : IMap).Pairwise
      (fun a e => F.ltb a.1 e.1 = true) ∧
    ([(F.num 101, F.num 5), (F.num 100, F.num 2)] : IMap).Pairwise
      (fun a e => a.1 ≠ e.1) ∧
    ([(F.num 102, F.num 3), (F.num 103, F.num 1)] : IMap).Pairwise
      (fun a e => a.1 ≠ e.1) :=
  claim3_sides_sorted
    ⟨[(F.num 101, F.num 5), (F.num 100, F.num 2)],
     [(F.num 102, F.num 3), (F.num 103, F.num 1)]⟩
    (Reachable.snap Reachable.empty
      (show applySnapshot Book.empty
        [(F.num 100, F.num 2), (F.num 101, F.num 5)]
        [(F.num 102, F.num 3), (F.num 103, F.num 1)] = .ok _ from rfl))

/-- C4: no stored level on either side of a reachable book has size ≤ 0
(in the IEEE sense `size <= 0.0`): non-positive input sizes are discarded by
snapshots and treated as removals by deltas, never stored. -/
theorem claim4_sizes_positive (b : Book) (h : Reachable b) :
    (∀ e ∈ b.bids, F.leb e.2 (F.num 0) = false) ∧
    (∀ e ∈ b.asks, F.leb e.2 (F.num 0) = false) := by
  obtain ⟨hb, ha⟩ := reachable_inv h
  exact ⟨fun e he => F.gtb_leb_false (hb.2.1 e he),
    fun e he => F.gtb_leb_false (ha.2.1 e he)⟩

theorem claim4_sizes_positive_witness :
    (∀ e ∈ ([(F.num 9, F.num 4)] : IMap), F.leb e.2 (F.num 0) = false) ∧
    (∀ e ∈ ([] : IMap), F.leb e.2 (F.num 0) = false) :=
  claim4_sizes_positive ⟨[(F.num 9, F.num 4)], []⟩
    (Reachable.delta Reachable.empty
      (show applyDelta Book.empty
        [(F.num 9, F.num 4), (F.num 9, F.num 0), (F.num 9, F.num 4)] [] =
        .ok _ from rfl))

/-- C5: a successful snapshot whose input holds two or more positive-size
entries at the same price stores exactly one level at that price, sized by
the last such occurrence in the input sequence. -/
theorem claim5_snapshot_last_write_wins {b b2 : Book} {bids asks : List Entry}
    (hok : applySnapshot b bids asks = .ok b2) (p : F) :
    (2 ≤ (bids.filter (fun e => e.1 == p && F.gtb e.2 (F.num 0))).length →
      mlookup b2.bids p =
        ((bids.filter (fun e => e.1 == p && F.gtb e.2 (F.num 0))).getLast?).map
          Prod.snd ∧
      b2.bids.countP (fun e => e.1 == p) = 1) ∧
    (2 ≤ (asks.filter (fun e => e.1 == p && F.gtb e.2 (F.num 0))).length →
      mlookup b2.asks p =
        ((asks.filter (fun e => e.1 == p && F.gtb e.2 (F.num 0))).getLast?).map
          Prod.snd ∧
      b2.asks.countP (fun e => e.1 == p) = 1) := by
  have hinv := snap_ok_inv hok
  obtain ⟨h1, h2, rfl⟩ := applySnapshot_ok hok
  constructor
  · intro hl
    exact snap_side_lww cDesc_eq_iff bids p
      (sideOK_nodup cDesc_eq_iff hinv.1) hl
  · intro hl
    exact snap_side_lww cAsc_eq_iff asks p
      (sideOK_nodup cAsc_eq_iff hinv.2) hl

theorem claim5_snapshot_last_write_wins_witness :
    mlookup [(F.num 100, F.num 7)] (F.num 100) =
      ((([(F.num 100, F.num 2), (F.num 100, F.num 7)] : List Entry).filter
        (fun e => e.1 == F.num 100 && F.gtb e.2 (F.num 0))).getLast?).map
        Prod.snd ∧
    ([(F.num 100, F.num 7)] : IMap).countP (fun e => e.1 == F.num 100) = 1 :=
  (claim5_snapshot_last_write_wins
    (show applySnapshot Book.empty
      [(F.num 100, F.num 2), (F.num 100, F.num 7)] [] =
      .ok ⟨[(F.num 100, F.num 7)], []⟩ from rfl) (F.num 100)).1 (by decide)

/-- C6: one `apply_delta` entry `(p, s)` applied to a side: a positive size
inserts or resizes the level at `p`, a size ≤ 0 removes it, and removing an
absent price leaves the side exactly unchanged (silent no-op, not an
error). -/
theorem claim6_delta_entry_semantics (m : IMap) (p s : F)
    (hnd : NodupKeys m) :
    (F.gtb s (F.num 0) = true →
      mlookup (deltaStep m (p, s)) p = some s) ∧
    (F.leb s (F.num 0) = true →
      mlookup (deltaStep m (p, s)) p = none) ∧
    (F.leb s (F.num 0) = true → mlookup m p = none →
      deltaStep m (p, s) = m) := by
  refine ⟨?_, ?_, ?_⟩
  · intro hp
    unfold deltaStep
    rw [if_pos hp]
    exact mlookup_imInsert_self m p s
  · intro hp
    have hng : F.gtb s (F.num 0) = false := F.leb_gtb_false hp
    unfold deltaStep
    rw [if_neg (by simp [hng])]
    exact mlookup_imSwapRemove_self hnd
  · intro hp habs
    have hng : F.gtb s (F.num 0) = false := F.leb_gtb_false hp
    unfold deltaStep
    rw [if_neg (by simp [hng])]
    exact imSwapRemove_id (mlookup_eq_none_iff.mp habs)

theorem claim6_delta_entry_semantics_witness :
    (F.gtb (F.num 0) (F.num 0) = true →
      mlookup (deltaStep [(F.num 5, F.num 1)] (F.num 9, F.num 0)) (F.num 9) =
        some (F.num 0)) ∧
    (F.leb (F.num 0) (F.num 0) = true →
      mlookup (deltaStep [(F.num 5, F.num 1)] (F.num 9, F.num 0)) (F.num 9) =
        none) ∧
    (F.leb (F.num 0) (F.num 0) = true →
      mlookup [(F.num 5, F.num 1)] (F.num 9) = none →
      deltaStep [(F.num 5, F.num 1)] (F.num 9, F.num 0) =
        [(F.num 5, F.num 1)]) :=
  claim6_delta_entry_semantics [(F.num 5, F.num 1)] (F.num 9) (F.num 0)
    (by simp [NodupKeys])

/-- C7: `microprice` with both best levels present returns
`bp * (as / total) + ap * (bs / total)` when `total = bs + as > 0`, falls
back to `mid` when `total = 0` or a side is empty, and `mid` is
`(bp + ap) / 2` exactly when both best prices are strictly positive, absent
otherwise. -/
theorem claim7_microprice_formula (b : Book) :
    (∀ bp bs ap asz, bestBid b = some (bp, bs) → bestAsk b = some (ap, asz) →
      (F.gtb (F.add bs asz) (F.num 0) = true →
        microprice b = some (F.add (F.mul bp (F.div asz (F.add bs asz)))
                                   (F.mul ap (F.div bs (F.add bs asz))))) ∧
      (F.add bs asz = F.num 0 → microprice b = mid b) ∧
      (mid b = if F.gtb bp (F.num 0) && F.gtb ap (F.num 0)
               then some (F.div (F.add bp ap) (F.num 2)) else none)) ∧
    ((bestBid b = none ∨ bestAsk b = none) →
      microprice b = mid b ∧ mid b = none) := by
  constructor
  · intro bp bs ap asz hb ha
    refine ⟨?_, ?_, ?_⟩
    · intro htot
      simp only [microprice, hb, ha]
      rw [if_pos htot]
    · intro h0
      simp only [microprice, hb, ha]
      rw [h0, if_neg (by decide)]
    · simp only [mid, hb, ha]
  · intro h
    rcases h with h | h
    · constructor
      · simp [microprice, h]
      · simp [mid, h]
    · cases hb : bestBid b with
      | none =>
        constructor
        · simp [microprice, hb]
        · simp [mid, hb]
      | some e =>
        obtain ⟨bp, bs⟩ := e
        constructor
        · simp [microprice, hb, h]
        · simp [mid, hb, h]

theorem claim7_microprice_formula_witness :
    microprice ⟨[(F.num 101, F.num 5), (F.num 100, F.num 2)],
                [(F.num 102, F.num 3), (F.num 103, F.num 1)]⟩ =
      some (F.add
        (F.mul (F.num 101) (F.div (F.num 3) (F.add (F.num 5) (F.num 3))))
        (F.mul (F.num 102) (F.div (F.num 5) (F.add (F.num 5) (F.num 3))))) :=
  (((claim7_microprice_formula
      ⟨[(F.num 101, F.num 5), (F.num 100, F.num 2)],
       [(F.num 102, F.num 3), (F.num 103, F.num 1)]⟩).1
    (F.num 101) (F.num 5) (F.num 102) (F.num 3) rfl rfl).1)
    (by norm_num [F.add, F.gtb, F.pcmp, F.qcmp]; rfl)

/-- Clamping of `take` to the available length, used to express the "depth
silently clamped" phrasing of C8. -/
theorem take_min_length {α : Type} (l : List α) (n : Nat) :
    l.take n = l.take (min n l.length) := by
  rcases Nat.le_total n l.length with h | h
  · rw [Nat.min_eq_left h]
  · rw [Nat.min_eq_right h, List.take_length, List.take_of_length_le h]

/-- C8: `imbalance depth` sums the sizes of the top `min(depth, available)`
levels of each side and returns `(bid_vol - ask_vol) / (bid_vol + ask_vol)`,
except that it returns exactly 0 when the denominator is 0, in particular
for depth 0 and for the empty book. -/
theorem claim8_imbalance_formula (b : Book) (depth : Nat) :
    imbalance b depth =
      (if F.add (volTo b.bids depth) (volTo b.asks depth) = F.num 0
       then F.num 0
       else F.div (F.sub (volTo b.bids depth) (volTo b.asks depth))
                  (F.add (volTo b.bids depth) (volTo b.asks depth))) ∧
    b.bids.take depth = b.bids.take (min depth b.bids.length) ∧
    b.asks.take depth = b.asks.take (min depth b.asks.length) ∧
    imbalance b 0 = F.num 0 ∧
    imbalance Book.empty depth = F.num 0 := by
  refine ⟨?_, take_min_length _ _, take_min_length _ _, ?_, ?_⟩
  · by_cases h : F.add (volTo b.bids depth) (volTo b.asks depth) = F.num 0 <;>
      simp [imbalance, h]
  · simp [imbalance, volTo, F.add]
  · simp [imbalance, volTo, F.add, Book.empty]

/-- C9: a successful snapshot is idempotent and independent of the prior
state: re-applying the same input to the resulting book (or applying it to
any book at all) returns the same observable state. -/
theorem claim9_snapshot_idempotent {b b2 : Book} {bids asks : List Entry}
    (h : applySnapshot b bids asks = .ok b2) :
    applySnapshot b2 bids asks = .ok b2 ∧
    ∀ b3, applySnapshot b3 bids asks = .ok b2 :=
  ⟨(applySnapshot_state_free b2 b bids asks).trans h,
   fun b3 => (applySnapshot_state_free b3 b bids asks).trans h⟩

theorem claim9_snapshot_idempotent_witness :
    applySnapshot ⟨[(F.num 1, F.num 2)], []⟩ [(F.num 1, F.num 2)] [] =
      .ok ⟨[(F.num 1, F.num 2)], []⟩ :=
  (claim9_snapshot_idempotent
    (show applySnapshot Book.empty [(F.num 1, F.num 2)] [] =
      .ok ⟨[(F.num 1, F.num 2)], []⟩ from rfl)).1

/-- C10: frame property of `apply_delta`: a level whose price is named by
none of that side's batch entries survives a successful delta with its size
unchanged.  The `NodupKeys` hypotheses state that the sides are well-formed
`IndexMap`s (every map state satisfies them). -/
theorem claim10_delta_frame {b b2 : Book} {bids asks : List Entry}
    (hnb : NodupKeys b.bids) (hna : NodupKeys b.asks)
    (hok : applyDelta b bids asks = .ok b2) :
    (∀ p s, (∀ e ∈ bids, e.1 ≠ p) → mlookup b.bids p = some s →
      mlookup b2.bids p = some s) ∧
    (∀ p s, (∀ e ∈ asks, e.1 ≠ p) → mlookup b.asks p = some s →
      mlookup b2.asks p = some s) := by
  obtain ⟨h1, h2, rfl⟩ := applyDelta_ok hok
  constructor
  · intro p s hnot hsome
    rw [mlookup_rebuild (foldl_deltaStep_nodup hnb),
      mlookup_foldl_deltaStep hnb hnot]
    exact hsome
  · intro p s hnot hsome
    rw [mlookup_rebuild (foldl_deltaStep_nodup hna),
      mlookup_foldl_deltaStep hna hnot]
    exact hsome

theorem claim10_delta_frame_witness :
    mlookup [(F.num 7, F.num 2), (F.num 5, F.num 1)] (F.num 5) =
      some (F.num 1) :=
  (claim10_delta_frame (by simp [NodupKeys]) (by simp [NodupKeys])
    (show applyDelta ⟨[(F.num 5, F.num 1)], []⟩ [(F.num 7, F.num 2)] [] =
      .ok ⟨[(F.num 7, F.num 2), (F.num 5, F.num 1)], []⟩ from rfl)).1
    (F.num 5) (F.num 1) (by decide) rfl

end MM
